import Mathlib

/-!
Shallow embedding of `src/app.py` (a small Flask price-catalog service) and
proofs about it.  Strings are modelled as `List Char` internally, with
`String` wrappers keeping the Python function names.  External library
behaviour that the code relies on is modelled explicitly:

* `unidecode.unidecode` is modelled character-wise by `unidecodeChar`, a
  partial table of the library's transliteration: identity on ASCII,
  accent-stripping on the Latin letters occurring in this repository, and
  the library's documented CJK behaviour (`unidecode('北亰') == 'Bei Jing '`,
  the example from the library's own documentation).  Characters outside
  the table are dropped, matching the library's behaviour for unmapped
  code points.
* `str.lower` is modelled character-wise by `pyLower` (ASCII plus the
  accented Latin-1 letters used here; identity elsewhere).
* Python `re.sub(r"\bde\b", " ", t)` is modelled by `subDe`, scanning left
  to right; `\w` is `[a-zA-Z0-9_]` since the scanned text is the output of
  the transliteration, hence ASCII.
* `float(...)`/`round(...)` (binary floating point in Python) are modelled
  by exact decimal-rational parsing plus round-half-to-even, exact for all
  values within the claims' scope; `float` special forms (inf/nan,
  underscores) are outside the model.
* `requests.get` + CSV decoding are abstracted into a `FetchResult` that
  either fails or delivers the parsed data rows.
-/

/-! ## Characters -/

/-- Python whitespace (`str.split`, `str.strip`) restricted to ASCII. -/
def pyIsSpace (c : Char) : Bool :=
  c = ' ' || c = '\t' || c = '\n' || c = '\r' || c = '\x0b' || c = '\x0c'

/-- Regex word character `\w` over ASCII text: `[a-zA-Z0-9_]`. -/
def isWordChar (c : Char) : Bool :=
  ('a' ≤ c && c ≤ 'z') || ('A' ≤ c && c ≤ 'Z') || ('0' ≤ c && c ≤ '9') || c = '_'

/-- ASCII decimal digit (`str.isdigit` restricted to ASCII). -/
def isDigitChar (c : Char) : Bool := '0' ≤ c && c ≤ '9'

/-- Character-wise model of Python `str.lower` on the characters this
repository can meet: ASCII letters and the accented Latin capitals. -/
def pyLower (c : Char) : Char :=
  if 'A' ≤ c && c ≤ 'Z' then Char.ofNat (c.toNat + 32)
  else if c = 'À' then 'à' else if c = 'Á' then 'á'
  else if c = 'Â' then 'â' else if c = 'Ã' then 'ã'
  else if c = 'Ç' then 'ç' else if c = 'É' then 'é'
  else if c = 'Ê' then 'ê' else if c = 'Í' then 'í'
  else if c = 'Ó' then 'ó' else if c = 'Ô' then 'ô'
  else if c = 'Õ' then 'õ' else if c = 'Ú' then 'ú'
  else if c = 'Ü' then 'ü' else c

/-- Character-wise model of `unidecode.unidecode` (partial table, see the
header comment). -/
def unidecodeChar (c : Char) : List Char :=
  if c.toNat < 128 then [c]
  else if c = 'á' || c = 'à' || c = 'â' || c = 'ã' || c = 'ä' then ['a']
  else if c = 'é' || c = 'è' || c = 'ê' || c = 'ë' then ['e']
  else if c = 'í' || c = 'ì' || c = 'î' || c = 'ï' then ['i']
  else if c = 'ó' || c = 'ò' || c = 'ô' || c = 'õ' || c = 'ö' then ['o']
  else if c = 'ú' || c = 'ù' || c = 'û' || c = 'ü' then ['u']
  else if c = 'ç' then ['c'] else if c = 'ñ' then ['n']
  else if c = 'À' || c = 'Á' || c = 'Â' || c = 'Ã' then ['A']
  else if c = 'É' || c = 'Ê' then ['E'] else if c = 'Í' then ['I']
  else if c = 'Ó' || c = 'Ô' || c = 'Õ' then ['O']
  else if c = 'Ú' || c = 'Ü' then ['U'] else if c = 'Ç' then ['C']
  else if c = '北' then ['B', 'e', 'i', ' ']
  else if c = '亰' then ['J', 'i', 'n', 'g', ' ']
  else []

/-! ## `re.sub(r"\bde\b", " ", t)` -/

/-- Is the first character of `l` a word character? (`[]` behaves as a
boundary, i.e. not a word character.) -/
def headIsWord : List Char → Bool
  | [] => false
  | c :: _ => isWordChar c

/-- Does the regex `\bde\b` match at the start of `l`, where `b` records
whether the character just before `l` is a word character? -/
def deMatch (b : Bool) (l : List Char) : Bool :=
  (l.head? == some 'd') && (l.tail.head? == some 'e') && !b && !headIsWord l.tail.tail

/-- Fuel-driven scanner for `re.sub(r"\bde\b", " ", t)`: replaces each
(leftmost, non-overlapping) isolated occurrence of `de` by one space.
The fuel only makes the recursion structural; `subDe` supplies enough. -/
def subDeF : Nat → Bool → List Char → List Char
  | 0, _, l => l
  | _ + 1, _, [] => []
  | n + 1, b, c :: cs =>
    if deMatch b (c :: cs) then ' ' :: subDeF n true cs.tail
    else c :: subDeF n (isWordChar c) cs

/-- `re.sub(r"\bde\b", " ", t)` with `b` the word-ness of the previous
character (`false` at the start of the string). -/
def subDe (b : Bool) (l : List Char) : List Char := subDeF l.length b l

/-! ## `str.split()` / `" ".join(...)` / `str.strip()` -/

/-- Helper for `str.split()`: `acc` is the word being accumulated. -/
def splitWAux : List Char → List Char → List (List Char)
  | acc, [] => if acc = [] then [] else [acc]
  | acc, c :: cs =>
    if pyIsSpace c then
      (if acc = [] then splitWAux [] cs else acc :: splitWAux [] cs)
    else splitWAux (acc ++ [c]) cs

/-- Python `str.split()` (no argument): split on whitespace runs, no empty
pieces. -/
def splitW (l : List Char) : List (List Char) := splitWAux [] l

/-- `" ".join(ws)`. -/
def joinWords : List (List Char) → List Char
  | [] => []
  | [w] => w
  | w :: ws => w ++ ' ' :: joinWords ws

/-- Python `str.strip()` (whitespace from both ends). -/
def pyStrip (l : List Char) : List Char :=
  ((l.dropWhile pyIsSpace).reverse.dropWhile pyIsSpace).reverse

/-- `str.strip()` on `String`. -/
def pyStripS (s : String) : String := ⟨pyStrip s.data⟩

/-- `t.replace("-", " ")`. -/
def dashToSpace (c : Char) : Char := if c = '-' then ' ' else c

/-! ## `norm_nome` -/

/-- Core of `norm_nome` on character lists: lower-case, transliterate,
remove the standalone word `de`, hyphens to spaces, collapse whitespace. -/
def normL (l : List Char) : List Char :=
  joinWords (splitW (List.map dashToSpace
    (subDe false (((l.map pyLower).map unidecodeChar).flatten))))

/-- `norm_nome` from `src/app.py` (the `txt is None` branch is outside the
model: inputs here are always strings). -/
def norm_nome (s : String) : String := ⟨normL s.data⟩

/-! ## Predicates used by the idempotence development -/

/-- No `\bde\b` match anywhere in `l`, scanning with previous-character
word-ness `b`; `subDe` is the identity exactly on match-free text. -/
def noMatchB : Bool → List Char → Bool
  | _, [] => true
  | b, c :: cs => !deMatch b (c :: cs) && noMatchB (isWordChar c) cs

/-- A character left fixed by one normalization pass: lower-case-stable and
transliteration-stable. -/
def stableChar (c : Char) : Bool := (pyLower c == c) && (unidecodeChar c == [c])

/-- A character whose lower-cased transliteration consists of stable
characters only.  All ASCII characters and the accented Latin letters are
good; a character transliterating to text with capital letters (such as
`'北' ↦ "Bei "`) is not. -/
def goodChar (c : Char) : Bool := (unidecodeChar (pyLower c)).all stableChar

/-- No whitespace character occurs in `l`. -/
def spaceFree (l : List Char) : Bool := l.all (fun c => !pyIsSpace c)

/-! ## `to_csv_url` -/

/-- Python `needle in hay` substring test. -/
def containsSub (needle : List Char) : List Char → Bool
  | [] => needle.isEmpty
  | c :: cs => needle.isPrefixOf (c :: cs) || containsSub needle cs

/-- Fuel-driven `str.replace` (all non-overlapping occurrences, left to
right); the fuel only makes the recursion structural. -/
def replaceAllF : Nat → List Char → List Char → List Char → List Char
  | 0, _, _, l => l
  | _ + 1, _, _, [] => []
  | n + 1, pat, rep, c :: cs =>
    if pat ≠ [] && pat.isPrefixOf (c :: cs) then
      rep ++ replaceAllF n pat rep ((c :: cs).drop pat.length)
    else c :: replaceAllF n pat rep cs

/-- `hay.replace(pat, rep)`. -/
def replaceAll (pat rep l : List Char) : List Char := replaceAllF l.length pat rep l

/-- `to_csv_url` from `src/app.py`. -/
def to_csv_url (url : String) : String :=
  if url = "" then ""
  else if containsSub "output=csv".data url.data then url
  else if containsSub "/pubhtml".data url.data then
    let url2 : String := ⟨replaceAll "/pubhtml".data "/pub".data url.data⟩
    let sep : String := if containsSub "?".data url2.data then "&" else "?"
    url2 ++ sep ++ "output=csv"
  else url

/-! ## `parse_preco` -/

/-- Value of a digit character. -/
def digitVal (c : Char) : Nat := c.toNat - '0'.toNat

/-- Python `int(digits)` on a nonempty ASCII digit string. -/
def digitsToNat (l : List Char) : Nat := l.foldl (fun a c => 10 * a + digitVal c) 0

/-- Parse `Python float(s)` input syntax `[+-]? (d+ [. d*] | . d+) ([eE] [+-]? d+)?`
into an exact decimal `(mantissa, exponent)` with value `m * 10 ^ e`
(special forms such as `inf`, `nan` and underscores are outside the model). -/
def pyFloat (l : List Char) : Option (Int × Int) :=
  let (sgn, l1) : Int × List Char :=
    match l with
    | '+' :: t => (1, t)
    | '-' :: t => (-1, t)
    | _ => (1, l)
  let ip := l1.takeWhile isDigitChar
  let l2 := l1.dropWhile isDigitChar
  let (fp, l3) : List Char × List Char :=
    match l2 with
    | '.' :: t => (t.takeWhile isDigitChar, t.dropWhile isDigitChar)
    | _ => ([], l2)
  if ip = [] && fp = [] then none
  else
    let mant : Int := sgn * (digitsToNat (ip ++ fp) : Int)
    match l3 with
    | [] => some (mant, -(fp.length : Int))
    | 'e' :: t | 'E' :: t =>
      let (esgn, t1) : Int × List Char :=
        match t with
        | '+' :: u => (1, u)
        | '-' :: u => (-1, u)
        | _ => (1, t)
      if t1 ≠ [] && t1.all isDigitChar then
        some (mant, esgn * (digitsToNat t1 : Int) - (fp.length : Int))
      else none
    | _ => none

/-- Python `round(a / d)` for integer `a` and positive integer `d`,
computed exactly on rationals: round half to even. -/
def pyRound (a : Int) (n : Nat) : Int :=
  let d : Int := (n : Int)
  let f := a.ediv d
  let r := a.emod d
  if 2 * r < d then f
  else if d < 2 * r then f + 1
  else if f.emod 2 = 0 then f else f + 1

/-- `int(round(float(...)))` for an exact decimal `(m, e)`. -/
def roundDec (m e : Int) : Int :=
  if 0 ≤ e then m * 10 ^ e.toNat else pyRound m (10 ^ (-e).toNat)

/-- `parse_preco` from `src/app.py`.  The digit fallback reads the
transformed string (dots removed, comma turned into a dot), exactly as the
code does. -/
def parse_preco (v : Option String) : Option Int :=
  match v with
  | none => none
  | some v0 =>
    let s := pyStrip v0.data
    if s = [] then none
    else
      let s1 := s.filter (fun c => c ≠ '.')
      let s2 := s1.map (fun c => if c = ',' then '.' else c)
      match pyFloat s2 with
      | some (m, e) => some (roundDec m e)
      | none =>
        let digs := s2.filter isDigitChar
        if digs = [] then none else some ((digitsToNat digs : Int))

/-! ## Catalog -/

/-- A catalog value: `{"preco": ..., "display": ...}`. -/
structure Entry where
  preco : Int
  display : String
deriving DecidableEq, Repr

/-- The catalog dict, as an association list with unique keys in insertion
order. -/
abbrev CatalogT : Type := List (String × Entry)

/-- Python dict lookup (`CATALOGO.get(k)` / `k in CATALOGO`). -/
def clookup : CatalogT → String → Option Entry
  | [], _ => none
  | p :: ps, k => if p.1 = k then some p.2 else clookup ps k

/-- Python dict assignment `CATALOGO[key] = v`: update in place if the key
exists, else append. -/
def dinsert (cat : CatalogT) (k : String) (e : Entry) : CatalogT :=
  if cat.any (fun p => p.1 = k) then
    cat.map (fun p => if p.1 = k then (k, e) else p)
  else cat ++ [(k, e)]

/-- A CSV data row, restricted to the columns `carregar_catalogo` reads
(`row.get(...)` is `none` when the column is absent). -/
structure Row where
  materiais : Option String
  material : Option String
  nome : Option String
  preco : Option String
  precoAcento : Option String
  precoRs : Option String
deriving DecidableEq, Repr

/-- Python `a or b` for an optional string `a` (falsy: `None` and `""`). -/
def orStr (a : Option String) (b : String) : String :=
  match a with
  | some s => if s = "" then b else s
  | none => b

/-- `row.get("materiais") or row.get("material") or row.get("nome") or ""`. -/
def matRawOf (row : Row) : String :=
  orStr row.materiais (orStr row.material (orStr row.nome ""))

/-- `row.get("preco") or row.get("preço") or row.get("preco (r$)") or ""`. -/
def precoRawOf (row : Row) : Option String :=
  some (orStr row.preco (orStr row.precoAcento (orStr row.precoRs "")))

/-- The body of the `for row in reader` loop of `carregar_catalogo`. -/
def processRow (cat : CatalogT) (row : Row) : CatalogT :=
  let mat := pyStripS (matRawOf row)
  if mat = "" then cat
  else
    match parse_preco (precoRawOf row) with
    | none => cat
    | some p =>
      let key := norm_nome mat
      if key = "" then cat
      else dinsert cat key ⟨p, mat⟩

/-- Outcome of `requests.get` + `raise_for_status` + decode + `DictReader`:
either a transport/HTTP failure, or the parsed data rows. -/
inductive FetchResult where
  | failure : FetchResult
  | success : List Row → FetchResult

/-- `carregar_catalogo` from `src/app.py`.  `old` is the catalog before the
call; the code clears it (`CATALOGO.clear()`) before doing anything else,
which is why `old` never flows into the result. -/
def carregar_catalogo (old : CatalogT) (materiais_url : String)
    (fetch : FetchResult) : CatalogT :=
  let _ := old
  let cleared : CatalogT := []
  if to_csv_url materiais_url = "" then cleared
  else
    match fetch with
    | .failure => cleared
    | .success rows => rows.foldl processRow cleared

/-- JSON body of `POST /reload`. -/
structure ReloadResponse where
  ok : Bool
  materiais_catalogo : Nat
deriving DecidableEq, Repr

/-- The `/reload` endpoint: reloads and always answers `{"ok": True, ...}`. -/
def reload (old : CatalogT) (url : String) (fetch : FetchResult) :
    ReloadResponse × CatalogT :=
  let newCat := carregar_catalogo old url fetch
  (⟨true, newCat.length⟩, newCat)

/-! ## Category and pricing -/

/-- The five fixed premium leather names. -/
def PREMIUM_NAMES : List String :=
  ["Couro de Jacaré", "Couro de Python", "Couro de Avestruz",
   "Couro de Pirarucu", "Couro de Elefante"]

/-- `PREMIUM_KEYS`: the premium names, normalized once. -/
def PREMIUM_KEYS : List String := PREMIUM_NAMES.map norm_nome

/-- `classificar_categoria` from `src/app.py`. -/
def classificar_categoria (keys_norm : List String) : String :=
  if keys_norm.any (fun k => PREMIUM_KEYS.contains k) then "Couro Premium"
  else "Casual Urbano"

/-- Python `s.split(",")` (keeps empty pieces). -/
def splitComma : List Char → List (List Char)
  | [] => [[]]
  | c :: t =>
    if c = ',' then [] :: splitComma t
    else
      match splitComma t with
      | [] => [[c]]
      | w :: ws => (c :: w) :: ws

/-- `(request.args.get("materiais") or "").strip()`. -/
def materiaisStrOf (arg : Option String) : List Char := pyStrip (arg.getD "").data

/-- `[p.strip() for p in materiais_str.split(",") if p.strip()]`. -/
def itensOf (arg : Option String) : List String :=
  (((splitComma (materiaisStrOf arg)).map pyStrip).filter
    (fun w => w ≠ [])).map (fun w => (⟨w⟩ : String))

/-- `keys_norm = [norm_nome(p) for p in itens]`. -/
def keysNormOf (arg : Option String) : List String := (itensOf arg).map norm_nome

/-- The items of a query whose normalized key misses the catalog, in input
order, with their trimmed original spelling. -/
def desconhecidosOf (cat : CatalogT) (arg : Option String) : List String :=
  (itensOf arg).filter (fun it => (clookup cat (norm_nome it)).isNone)

/-- `soma = sum(CATALOGO[k]["preco"] for k in keys_norm)` (missing keys give
0; the code only evaluates this once every key resolves). -/
def somaOf (cat : CatalogT) (keys : List String) : Int :=
  (keys.map (fun k => match clookup cat k with | some e => e.preco | none => 0)).sum

/-- JSON outcome of `GET /preco`: HTTP 400, HTTP 404 with the unknown
materials, or HTTP 200 with materials, price, category, sum and count. -/
inductive PrecoResult where
  | badRequest : String → PrecoResult
  | notFound : String → List String → PrecoResult
  | ok : List String → Int → String → Int → Nat → PrecoResult
deriving DecidableEq, Repr

/-- The `/preco` endpoint from `src/app.py`.  The `CATALOGO[k]["preco"]`
access is total here (`none` gives 0) but is only reached when every key
resolves, exactly as in the code. -/
def preco (cat : CatalogT) (arg : Option String) : PrecoResult :=
  if materiaisStrOf arg = [] then .badRequest "Materiais não informados"
  else
    let itens := itensOf arg
    if itens = [] then .badRequest "Nenhum material válido informado"
    else
      let keys_norm := keysNormOf arg
      let desconhecidos :=
        ((itens.zip keys_norm).filter
          (fun p => (clookup cat p.2).isNone)).map Prod.fst
      if desconhecidos = [] then
        let soma := somaOf cat keys_norm
        let n := keys_norm.length
        .ok itens (pyRound soma n) (classificar_categoria keys_norm) soma n
      else .notFound "Alguns materiais não existem no catálogo" desconhecidos

/-! ## Concrete instances used by counterexamples and witnesses -/

/-- The catalog of §8 of the spec, keyed by the normalized forms. -/
def exCatalog : CatalogT :=
  [("couro bovino", ⟨100, "Couro Bovino"⟩),
   ("couro tilapia", ⟨50, "Couro de Tilápia"⟩),
   ("jeans", ⟨30, "Jeans"⟩)]

/-- A CSV row whose price cell holds a negative number. -/
def rowNeg : Row := ⟨some "Couro Falso", none, none, some "-5", none, none⟩

/-- A catalog with a single entry, for reload counterexamples. -/
def oneEntryCat : CatalogT := [("jeans", ⟨30, "Jeans"⟩)]

/-- A source URL that survives `to_csv_url` unchanged and non-empty. -/
def exUrl : String := "https://docs.example/pub?output=csv"

/-! ## Dictionary lemmas -/

theorem clookup_cons (p : String × Entry) (ps : CatalogT) (k : String) :
    clookup (p :: ps) k = if p.1 = k then some p.2 else clookup ps k := rfl

theorem clookup_update (cat : CatalogT) (k k' : String) (e : Entry) :
    clookup (cat.map (fun p => if p.1 = k then (k, e) else p)) k' =
      if k' = k then (if cat.any (fun p => p.1 = k) then some e else none)
      else clookup cat k' := by
  induction cat with
  | nil => simp [clookup]
  | cons p ps ih =>
    by_cases hp : p.1 = k
    · by_cases hk : k' = k
      · subst hk; simp [clookup, hp, ih]
      · simp [clookup, hp, hk, Ne.symm hk, ih]
    · by_cases hq : p.1 = k'
      · have hk : ¬ k' = k := fun h => hp (h ▸ hq)
        simp [clookup, hp, hq, hk, ih]
      · simp only [clookup, List.map_cons, List.any_cons, decide_eq_false hp,
          Bool.false_or, if_neg hp, if_neg hq, ih]

theorem clookup_append_single (cat : CatalogT) (k k' : String) (e : Entry)
    (h : cat.any (fun p => p.1 = k) = false) :
    clookup (cat ++ [(k, e)]) k' = if k' = k then some e else clookup cat k' := by
  induction cat with
  | nil =>
    by_cases hk : k' = k
    · subst hk; simp [clookup]
    · simp [clookup, hk, Ne.symm hk]
  | cons p ps ih =>
    simp only [List.any_cons, Bool.or_eq_false_iff, decide_eq_false_iff_not] at h
    by_cases hq : p.1 = k'
    · have hk : ¬ k' = k := fun hh => h.1 (hq.trans hh)
      simp [clookup, hq, hk]
    · simp [clookup, hq, ih h.2]

theorem clookup_dinsert (cat : CatalogT) (k k' : String) (e : Entry) :
    clookup (dinsert cat k e) k' = if k' = k then some e else clookup cat k' := by
  unfold dinsert
  by_cases h : cat.any (fun p => p.1 = k) = true
  · rw [if_pos h, clookup_update, h]; simp
  · have h' : cat.any (fun p => p.1 = k) = false := by
      cases hb : cat.any (fun p => p.1 = k) with
      | true => exact absurd hb h
      | false => rfl
    rw [if_neg (by simp [h']), clookup_append_single _ _ _ _ h']

theorem load_entry_from_parse (rows : List Row) (init : CatalogT) (k : String)
    (e : Entry) (h : clookup (rows.foldl processRow init) k = some e) :
    (∃ r ∈ rows, parse_preco (precoRawOf r) = some e.preco) ∨
      clookup init k = some e := by
  induction rows generalizing init with
  | nil => exact Or.inr h
  | cons r rs ih =>
    rcases ih (processRow init r) h with h1 | h2
    · obtain ⟨r', hr', hp⟩ := h1
      exact Or.inl ⟨r', List.mem_cons_of_mem _ hr', hp⟩
    · simp only [processRow] at h2
      by_cases hm : pyStripS (matRawOf r) = ""
      · rw [if_pos hm] at h2; exact Or.inr h2
      · rw [if_neg hm] at h2
        cases hp : parse_preco (precoRawOf r) with
        | none => simp only [hp] at h2; exact Or.inr h2
        | some p =>
          simp only [hp] at h2
          by_cases hk0 : norm_nome (pyStripS (matRawOf r)) = ""
          · rw [if_pos hk0] at h2; exact Or.inr h2
          · rw [if_neg hk0, clookup_dinsert] at h2
            by_cases hkk : k = norm_nome (pyStripS (matRawOf r))
            · rw [if_pos hkk] at h2
              cases h2
              exact Or.inl ⟨r, List.mem_cons_self _ _, hp⟩
            · rw [if_neg hkk] at h2; exact Or.inr h2

theorem load_no_empty_key (old : CatalogT) (url : String) (fetch : FetchResult) :
    clookup (carregar_catalogo old url fetch) "" = none := by
  have hfold : ∀ (rows : List Row) (init : CatalogT), clookup init "" = none →
      clookup (rows.foldl processRow init) "" = none := by
    intro rows
    induction rows with
    | nil => intro init h; exact h
    | cons r rs ih =>
      intro init h
      refine ih _ ?_
      simp only [processRow]
      by_cases hm : pyStripS (matRawOf r) = ""
      · rw [if_pos hm]; exact h
      · rw [if_neg hm]
        cases hp : parse_preco (precoRawOf r) with
        | none => exact h
        | some p =>
          show clookup (if norm_nome (pyStripS (matRawOf r)) = "" then init
            else dinsert init (norm_nome (pyStripS (matRawOf r)))
              ⟨p, pyStripS (matRawOf r)⟩) "" = none
          by_cases hk0 : norm_nome (pyStripS (matRawOf r)) = ""
          · rw [if_pos hk0]; exact h
          · rw [if_neg hk0, clookup_dinsert, if_neg (fun hh => hk0 hh.symm)]
            exact h
  simp only [carregar_catalogo]
  by_cases hu : to_csv_url url = ""
  · rw [if_pos hu]; rfl
  · rw [if_neg hu]
    cases fetch with
    | failure => rfl
    | success rows => exact hfold rows [] rfl

/-! ## Claim C1 (corrected) -/

/-- C1, counterexample: with a one-entry catalog previously loaded, a
reload whose fetch fails does not leave the entry in place — the catalog
was cleared before the fetch, so the old data is gone. -/
theorem c1_failed_reload_loses_entries :
    carregar_catalogo oneEntryCat exUrl .failure ≠ oneEntryCat := by decide

/-- C1 as amended: after a reload whose fetch fails (with any configured
source URL), the catalog is empty — previously loaded entries are cleared
before the fetch and are not restored. -/
theorem c1_failed_reload_empties_catalog (old : CatalogT) (url : String) :
    carregar_catalogo old url .failure = [] := by
  simp only [carregar_catalogo]
  split <;> rfl

/-! ## Claim C2 (code bug) -/

/-- C2: of the three spec examples for the price parser, the second and
third hold but the first fails: `parse_preco "R$ 1.497,00"` is `149700`,
not `1497` — `float("R$ 1497.00")` raises, and the digit fallback keeps
every digit of the transformed string, thousands digits and cents included.
This contradicts the code's own comment (`"R$ 1.497,00" -> 1497`). -/
theorem c2_parse_preco_examples :
    parse_preco (some "R$ 1.497,00") = some 149700 ∧
    parse_preco (some "") = none ∧
    parse_preco (some "abc123") = some 123 := by decide

/-! ## Claim C3 (corrected) -/

/-- C3, counterexample: a reload whose fetch fails still answers
`{"ok": true, "materiais_catalogo": 0}` — the caller is told success. -/
theorem c3_reload_reports_ok_on_failure :
    (reload oneEntryCat exUrl .failure).1 = ⟨true, 0⟩ := by decide

/-- C3 as amended: the `/reload` response always carries `ok = true`
(with the new catalog size), whether or not the fetch failed; the failure
is only logged, never reported to the caller. -/
theorem c3_reload_always_ok (old : CatalogT) (url : String)
    (fetch : FetchResult) : (reload old url fetch).1.ok = true := rfl

/-! ## Claim C4 (corrected) -/

/-- C4, counterexample: a load over a row whose price cell is `"-5"`
stores the entry with `preco = -5 < 0`: stored unit prices are not
necessarily non-negative. -/
theorem c4_negative_price_stored :
    clookup (carregar_catalogo [] exUrl (.success [rowNeg])) "couro falso"
      = some ⟨-5, "Couro Falso"⟩ ∧ ¬ (0 ≤ (-5 : Int)) := by decide

/-- C4 as amended: every entry stored by a load carries exactly the integer
that `parse_preco` produced for some source row's price cell; such an
integer can be negative (the parser accepts negative numbers), so stored
prices are integers but not necessarily non-negative. -/
theorem c4_stored_price_is_parsed_price (old : CatalogT) (url : String)
    (rows : List Row) (k : String) (e : Entry)
    (h : clookup (carregar_catalogo old url (.success rows)) k = some e) :
    ∃ r ∈ rows, parse_preco (precoRawOf r) = some e.preco := by
  simp only [carregar_catalogo] at h
  by_cases hu : to_csv_url url = ""
  · rw [if_pos hu] at h; cases h
  · rw [if_neg hu] at h
    rcases load_entry_from_parse rows [] k e h with h1 | h2
    · exact h1
    · cases h2

/-- Witness for the amended C4 at a concrete load. -/
theorem c4_stored_price_is_parsed_price_witness :
    ∃ r ∈ [rowNeg], parse_preco (precoRawOf r) = some (-5 : Int) :=
  c4_stored_price_is_parsed_price [] exUrl [rowNeg] "couro falso"
    ⟨-5, "Couro Falso"⟩ (by decide)

/-! ## Claim C9 (confirmed) -/

/-- C9: the two spellings normalize to the same key. -/
theorem c9_jacare_spellings_agree :
    norm_nome "Couro-de-Jacaré" = norm_nome "couro jacare" := by decide

/-! ## Pricing lemmas -/

theorem itensOf_nil_of_ms_nil (arg : Option String)
    (h : materiaisStrOf arg = []) : itensOf arg = [] := by
  unfold itensOf
  rw [h]
  rfl

theorem zip_map_filter {α β : Type} (l : List α) (f : α → β) (q : β → Bool) :
    (((l.zip (l.map f)).filter (fun p => q p.2)).map Prod.fst)
      = l.filter (fun a => q (f a)) := by
  induction l with
  | nil => rfl
  | cons a t ih =>
    simp only [List.map_cons, List.zip_cons_cons, List.filter_cons]
    by_cases hq : q (f a)
    · simp [hq, ih]
    · simp [hq, ih]

theorem desconhecidos_zip_eq (cat : CatalogT) (arg : Option String) :
    ((((itensOf arg).zip (keysNormOf arg)).filter
        (fun p => (clookup cat p.2).isNone)).map Prod.fst)
      = desconhecidosOf cat arg := by
  unfold keysNormOf desconhecidosOf
  exact zip_map_filter (itensOf arg) norm_nome (fun k => (clookup cat k).isNone)

theorem preco_eq_notFound (cat : CatalogT) (arg : Option String)
    (h : desconhecidosOf cat arg ≠ []) :
    preco cat arg = .notFound "Alguns materiais não existem no catálogo"
      (desconhecidosOf cat arg) := by
  have hit : itensOf arg ≠ [] := by
    intro h0
    apply h
    unfold desconhecidosOf
    rw [h0]
    rfl
  have hms : materiaisStrOf arg ≠ [] := by
    intro h0
    exact hit (itensOf_nil_of_ms_nil arg h0)
  simp only [preco]
  rw [if_neg hms, if_neg hit, desconhecidos_zip_eq, if_neg h]

theorem preco_eq_ok (cat : CatalogT) (arg : Option String)
    (hit : itensOf arg ≠ [])
    (hall : ∀ it ∈ itensOf arg, (clookup cat (norm_nome it)).isSome) :
    preco cat arg =
      .ok (itensOf arg)
        (pyRound (somaOf cat (keysNormOf arg)) (itensOf arg).length)
        (classificar_categoria (keysNormOf arg))
        (somaOf cat (keysNormOf arg)) (itensOf arg).length := by
  have hms : materiaisStrOf arg ≠ [] := by
    intro h0
    exact hit (itensOf_nil_of_ms_nil arg h0)
  have hdes : desconhecidosOf cat arg = [] := by
    unfold desconhecidosOf
    rw [List.filter_eq_nil_iff]
    intro it hmem
    rw [Option.isNone_iff_eq_none]
    intro hnone
    have := hall it hmem
    rw [hnone] at this
    simp at this
  simp only [preco]
  rw [if_neg hms, if_neg hit, desconhecidos_zip_eq, if_pos hdes]
  unfold keysNormOf
  rw [List.length_map]

theorem pyRound_nearest (a : Int) (n : Nat) (hn : n ≠ 0) :
    2 * ((n : Int) * pyRound a n - a).natAbs ≤ n := by
  have hd : (0 : Int) < (n : Int) := by
    exact_mod_cast Nat.pos_of_ne_zero hn
  have h1 : (n : Int) * (Int.ediv a (n : Int)) + Int.emod a (n : Int) = a :=
    Int.ediv_add_emod a (n : Int)
  have h2 : 0 ≤ Int.emod a (n : Int) := Int.emod_nonneg a (by omega)
  have h3 : Int.emod a (n : Int) < (n : Int) := Int.emod_lt_of_pos a hd
  have hexp : (n : Int) * (Int.ediv a (n : Int) + 1) =
      (n : Int) * Int.ediv a (n : Int) + (n : Int) := by ring
  have e1 : (n : Int) * Int.ediv a (n : Int) - a = -(Int.emod a (n : Int)) := by
    linarith [h1]
  have e2 : (n : Int) * (Int.ediv a (n : Int) + 1) - a =
      (n : Int) - Int.emod a (n : Int) := by
    linarith [h1, hexp]
  simp only [pyRound]
  split_ifs
  · rw [e1]; omega
  · rw [e2]; omega
  · rw [e1]; omega
  · rw [e2]; omega

/-! ## Claim C5 (confirmed) -/

/-- C5: whenever every query item resolves in the catalog, `/preco` answers
`ok` with the sum of the unit prices over all occurrences, the count of
items (duplicates included) as denominator, the price `round(soma / n)`,
and the classified category; that price is a nearest integer to `soma / n`
(`2·|n·price − soma| ≤ n`).  In particular the spec's example catalog and
query give sum 180, count 3, price 60 and category "Casual Urbano". -/
theorem c5_average_price :
    (∀ (cat : CatalogT) (arg : Option String),
        itensOf arg ≠ [] →
        (∀ it ∈ itensOf arg, (clookup cat (norm_nome it)).isSome) →
        preco cat arg =
          .ok (itensOf arg)
            (pyRound (somaOf cat (keysNormOf arg)) (itensOf arg).length)
            (classificar_categoria (keysNormOf arg))
            (somaOf cat (keysNormOf arg)) (itensOf arg).length ∧
        2 * (((itensOf arg).length : Int) *
              pyRound (somaOf cat (keysNormOf arg)) (itensOf arg).length
            - somaOf cat (keysNormOf arg)).natAbs ≤ (itensOf arg).length) ∧
    preco exCatalog (some "Couro Bovino, Couro de Tilápia, Jeans") =
      .ok ["Couro Bovino", "Couro de Tilápia", "Jeans"] 60 "Casual Urbano" 180 3 := by
  constructor
  · intro cat arg hit hall
    refine ⟨preco_eq_ok cat arg hit hall, ?_⟩
    exact pyRound_nearest (somaOf cat (keysNormOf arg)) (itensOf arg).length
      (fun h0 => hit (List.length_eq_zero.mp h0))
  · decide

/-- Witness for C5 at the spec's concrete catalog and query. -/
theorem c5_average_price_witness :
    preco exCatalog (some "Couro Bovino, Couro de Tilápia, Jeans") =
      .ok (itensOf (some "Couro Bovino, Couro de Tilápia, Jeans"))
        (pyRound (somaOf exCatalog (keysNormOf (some "Couro Bovino, Couro de Tilápia, Jeans")))
          (itensOf (some "Couro Bovino, Couro de Tilápia, Jeans")).length)
        (classificar_categoria (keysNormOf (some "Couro Bovino, Couro de Tilápia, Jeans")))
        (somaOf exCatalog (keysNormOf (some "Couro Bovino, Couro de Tilápia, Jeans")))
        (itensOf (some "Couro Bovino, Couro de Tilápia, Jeans")).length :=
  (c5_average_price.1 exCatalog (some "Couro Bovino, Couro de Tilápia, Jeans")
    (by decide) (by decide)).1

/-! ## Claim C6 (confirmed) -/

/-- C6: if some item's normalized key is absent from the catalog, `/preco`
fails with the 404 unknown-materials result whose list is exactly the
trimmed original spellings of the unresolved items in input order
(`desconhecidosOf`, the in-order filter of the trimmed items), and no
average is computed. -/
theorem c6_unknown_materials_all_or_nothing (cat : CatalogT) (arg : Option String)
    (h : ∃ it ∈ itensOf arg, clookup cat (norm_nome it) = none) :
    preco cat arg = .notFound "Alguns materiais não existem no catálogo"
      (desconhecidosOf cat arg) := by
  obtain ⟨it, hmem, hnone⟩ := h
  apply preco_eq_notFound
  apply List.ne_nil_of_mem (a := it)
  unfold desconhecidosOf
  rw [List.mem_filter]
  exact ⟨hmem, by rw [hnone]; rfl⟩

/-- Witness for C6: one valid and one unknown name. -/
theorem c6_unknown_materials_witness :
    preco exCatalog (some "Jeans, Couro Falso") =
      .notFound "Alguns materiais não existem no catálogo" ["Couro Falso"] := by
  rw [c6_unknown_materials_all_or_nothing exCatalog (some "Jeans, Couro Falso")
    ⟨"Couro Falso", by decide, by decide⟩]
  decide

/-! ## Claim C7 (confirmed) -/

/-- C7: the classifier answers "Couro Premium" as soon as one key belongs
to the premium set, whatever else is present, and "Casual Urbano" when no
key does. -/
theorem c7_classifier (ks : List String) :
    ((∃ k ∈ ks, k ∈ PREMIUM_KEYS) → classificar_categoria ks = "Couro Premium") ∧
    ((∀ k ∈ ks, k ∉ PREMIUM_KEYS) → classificar_categoria ks = "Casual Urbano") := by
  constructor
  · intro h
    obtain ⟨k, hk, hmem⟩ := h
    unfold classificar_categoria
    rw [if_pos]
    exact List.any_eq_true.mpr ⟨k, hk, List.elem_iff.mpr hmem⟩
  · intro h
    unfold classificar_categoria
    rw [if_neg]
    intro hany
    obtain ⟨k, hk, hmem⟩ := List.any_eq_true.mp hany
    exact h k hk (List.elem_iff.mp hmem)

/-- Witness for C7: a premium mix and a non-premium list. -/
theorem c7_classifier_witness :
    classificar_categoria ["couro jacare", "jeans"] = "Couro Premium" ∧
    classificar_categoria ["algodao"] = "Casual Urbano" :=
  ⟨(c7_classifier ["couro jacare", "jeans"]).1 ⟨"couro jacare", by decide, by decide⟩,
   (c7_classifier ["algodao"]).2 (by decide)⟩

/-! ## Claim C10 (confirmed) -/

/-- C10: no load ever stores an entry under the empty normalized key, so a
query item whose normalization is empty (such as "de") is always reported
among the unknown materials and never priced. -/
theorem c10_empty_key_never_priced (old : CatalogT) (url : String)
    (fetch : FetchResult) (arg : Option String) (it : String)
    (hmem : it ∈ itensOf arg) (hnorm : norm_nome it = "") :
    clookup (carregar_catalogo old url fetch) "" = none ∧
    ∃ des, preco (carregar_catalogo old url fetch) arg =
        .notFound "Alguns materiais não existem no catálogo" des ∧ it ∈ des := by
  refine ⟨load_no_empty_key old url fetch,
    desconhecidosOf (carregar_catalogo old url fetch) arg, ?_, ?_⟩
  · apply preco_eq_notFound
    apply List.ne_nil_of_mem (a := it)
    unfold desconhecidosOf
    rw [List.mem_filter]
    refine ⟨hmem, ?_⟩
    rw [hnorm, load_no_empty_key old url fetch]
    rfl
  · unfold desconhecidosOf
    rw [List.mem_filter]
    refine ⟨hmem, ?_⟩
    rw [hnorm, load_no_empty_key old url fetch]
    rfl

/-- Witness for C10 at a concrete load and the query item "de". -/
theorem c10_empty_key_never_priced_witness :
    clookup (carregar_catalogo [] exUrl .failure) "" = none ∧
    ∃ des, preco (carregar_catalogo [] exUrl .failure) (some "de") =
        .notFound "Alguns materiais não existem no catálogo" des ∧ "de" ∈ des :=
  c10_empty_key_never_priced [] exUrl .failure (some "de") "de"
    (by decide) (by decide)

/-! ## The `\bde\b` substitution: basic lemmas -/

theorem deMatch_cons_eq (b : Bool) (c : Char) (cs : List Char) :
    deMatch b (c :: cs) =
      ((c == 'd') && (cs.head? == some 'e') && !b && !headIsWord cs.tail) := rfl

theorem subDeF_fuel : ∀ (n m : Nat) (b : Bool) (l : List Char),
    l.length ≤ n → l.length ≤ m → subDeF n b l = subDeF m b l := by
  intro n
  induction n with
  | zero =>
    intro m b l h _
    have hl : l = [] := List.length_eq_zero.mp (Nat.le_zero.mp h)
    subst hl
    cases m <;> rfl
  | succ n ih =>
    intro m b l hn hm
    cases l with
    | nil => cases m <;> rfl
    | cons c cs =>
      cases m with
      | zero => simp at hm
      | succ m =>
        simp only [List.length_cons, Nat.add_le_add_iff_right] at hn hm
        simp only [subDeF]
        by_cases hd : deMatch b (c :: cs) = true
        · rw [if_pos hd, if_pos hd]
          refine congrArg (' ' :: ·) (ih m true cs.tail ?_ ?_) <;>
            simp only [List.length_tail] <;> omega
        · rw [if_neg hd, if_neg hd]
          exact congrArg (c :: ·) (ih m (isWordChar c) cs hn hm)

theorem subDe_nil (b : Bool) : subDe b [] = [] := rfl

theorem subDe_cons (b : Bool) (c : Char) (cs : List Char) :
    subDe b (c :: cs) =
      if deMatch b (c :: cs) then ' ' :: subDe true cs.tail
      else c :: subDe (isWordChar c) cs := by
  show subDeF (c :: cs).length b (c :: cs) = _
  simp only [List.length_cons, subDeF]
  by_cases hd : deMatch b (c :: cs) = true
  · rw [if_pos hd, if_pos hd]
    refine congrArg (' ' :: ·) (subDeF_fuel cs.length cs.tail.length true cs.tail ?_ ?_)
    · simp only [List.length_tail]; omega
    · exact Nat.le_refl _
  · rw [if_neg hd, if_neg hd]
    rfl

theorem subDe_id_of_noMatch : ∀ (l : List Char) (b : Bool),
    noMatchB b l = true → subDe b l = l := by
  intro l
  induction l with
  | nil => intro b _; rfl
  | cons c cs ih =>
    intro b h
    simp only [noMatchB, Bool.and_eq_true, Bool.not_eq_true'] at h
    rw [subDe_cons, if_neg (by simp [h.1])]
    exact congrArg (c :: ·) (ih (isWordChar c) h.2)

theorem noMatch_subDe_aux : ∀ (n : Nat) (b : Bool) (l : List Char), l.length ≤ n →
    noMatchB b (subDe b l) = true := by
  intro n
  induction n with
  | zero =>
    intro b l h
    have hl : l = [] := List.length_eq_zero.mp (Nat.le_zero.mp h)
    subst hl; rfl
  | succ n ih =>
    intro b l h
    cases l with
    | nil => rfl
    | cons c cs =>
      simp only [List.length_cons, Nat.add_le_add_iff_right] at h
      rw [subDe_cons]
      by_cases hd : deMatch b (c :: cs) = true
      · rw [if_pos hd]
        rw [deMatch_cons_eq] at hd
        simp only [Bool.and_eq_true, beq_iff_eq, Bool.not_eq_true'] at hd
        obtain ⟨⟨⟨hc, he⟩, hb⟩, hw⟩ := hd
        cases cs with
        | nil => simp at he
        | cons c2 cs2 =>
          simp only [List.head?_cons, Option.some.injEq] at he
          simp only [List.tail_cons] at hw ⊢
          rw [hb]
          cases cs2 with
          | nil => simp [subDe_nil, noMatchB, deMatch_cons_eq]
          | cons r rs =>
            have hr : isWordChar r = false := by simpa [headIsWord] using hw
            have hstep : subDe true (r :: rs) = r :: subDe false rs := by
              rw [subDe_cons, if_neg (by simp [deMatch_cons_eq]), hr]
            rw [hstep]
            have hrd : (r == 'd') = false := by
              by_cases hrr : r = 'd'
              · rw [hrr] at hr; exact absurd hr (by decide)
              · exact beq_eq_false_iff_ne.mpr hrr
            have hsp1 : isWordChar ' ' = false := by decide
            have hsp2 : (' ' == 'd') = false := by decide
            have hIH : noMatchB false (subDe false rs) = true := by
              refine ih false rs ?_
              simp only [List.length_cons] at h
              omega
            simp [noMatchB, deMatch_cons_eq, hrd, hr, hsp1, hsp2, hIH]
      · rw [if_neg hd]
        have hIH := ih (isWordChar c) cs h
        simp only [noMatchB, Bool.and_eq_true, Bool.not_eq_true']
        refine ⟨?_, hIH⟩
        rw [deMatch_cons_eq]
        by_cases hc : c = 'd'
        · subst hc
          have hwd : isWordChar 'd' = true := by decide
          rw [hwd]
          by_cases hb : b = true
          · simp [hb]
          · have hb' : b = false := by
              cases b
              · rfl
              · exact absurd rfl hb
            subst hb'
            cases cs with
            | nil => simp [subDe_nil]
            | cons c2 cs2 =>
              have hstep : subDe true (c2 :: cs2) = c2 :: subDe (isWordChar c2) cs2 := by
                rw [subDe_cons, if_neg (by simp [deMatch_cons_eq])]
              rw [hstep]
              by_cases hc2 : c2 = 'e'
              · subst hc2
                have hwe : isWordChar 'e' = true := by decide
                rw [hwe]
                have hw2 : headIsWord cs2 = true := by
                  by_contra hww
                  have hww' : headIsWord cs2 = false := by
                    cases hh : headIsWord cs2
                    · rfl
                    · exact absurd hh hww
                  apply hd
                  rw [deMatch_cons_eq]
                  simp [hww']
                cases cs2 with
                | nil => simp [headIsWord] at hw2
                | cons w ws =>
                  have hww : isWordChar w = true := by simpa [headIsWord] using hw2
                  have hstep2 : subDe true (w :: ws) = w :: subDe (isWordChar w) ws := by
                    rw [subDe_cons, if_neg (by simp [deMatch_cons_eq])]
                  simp [hstep2, headIsWord, hww]
              · simp [beq_eq_false_iff_ne.mpr hc2]
        · simp [beq_eq_false_iff_ne.mpr hc]

theorem noMatch_subDe (l : List Char) : noMatchB false (subDe false l) = true :=
  noMatch_subDe_aux l.length false l (Nat.le_refl _)

/-! ## No-match propagation through joining and splitting -/

theorem isWordChar_eq_false_of_space (c : Char) (h : pyIsSpace c = true) :
    isWordChar c = false := by
  simp only [pyIsSpace, Bool.or_eq_true, decide_eq_true_eq] at h
  rcases h with ((((h | h) | h) | h) | h) | h <;> subst h <;> decide

theorem deMatch_append_sep (b : Bool) (c : Char) (t w : List Char)
    (hc : isWordChar c = false) :
    deMatch b (w ++ c :: t) = deMatch b w := by
  have hcd : (c == 'd') = false := by
    by_cases hcc : c = 'd'
    · rw [hcc] at hc; exact absurd hc (by decide)
    · exact beq_eq_false_iff_ne.mpr hcc
  have hce : (c == 'e') = false := by
    by_cases hcc : c = 'e'
    · rw [hcc] at hc; exact absurd hc (by decide)
    · exact beq_eq_false_iff_ne.mpr hcc
  rcases w with - | ⟨a, - | ⟨a2, w'⟩⟩
  · simp [deMatch, deMatch_cons_eq, hcd]
  · simp only [List.cons_append, List.nil_append, deMatch_cons_eq,
      List.head?_cons, List.tail_cons]
    simp [deMatch_cons_eq, hce, deMatch]
  · simp only [List.cons_append, deMatch_cons_eq, List.head?_cons,
      List.tail_cons]
    rcases w' with - | ⟨a3, w''⟩
    · simp only [List.nil_append, List.tail_cons, List.tail_nil]
      have : headIsWord (c :: t) = false := by simp [headIsWord, hc]
      rw [this]
      rfl
    · rfl

theorem noMatchB_append_sep (c : Char) (hc : isWordChar c = false) :
    ∀ (w : List Char) (b : Bool) (t : List Char),
    noMatchB b (w ++ c :: t) = (noMatchB b w && noMatchB false t) := by
  intro w
  induction w with
  | nil =>
    intro b t
    have hcd : (c == 'd') = false := by
      by_cases hcc : c = 'd'
      · rw [hcc] at hc; exact absurd hc (by decide)
      · exact beq_eq_false_iff_ne.mpr hcc
    simp [noMatchB, deMatch_cons_eq, hcd, hc]
  | cons a w' ih =>
    intro b t
    simp only [List.cons_append, noMatchB, List.append_eq]
    rw [ih (isWordChar a) t,
      show deMatch b (a :: (w' ++ c :: t)) = deMatch b (a :: w') from
        deMatch_append_sep b c t (a :: w') hc,
      Bool.and_assoc]

theorem noMatchB_joinWords : ∀ (ws : List (List Char)),
    (∀ w ∈ ws, noMatchB false w = true) →
    noMatchB false (joinWords ws) = true := by
  intro ws
  induction ws with
  | nil => intro _; rfl
  | cons w ws' ih =>
    intro h
    cases ws' with
    | nil => exact h w (List.mem_singleton_self w)
    | cons w2 ws'' =>
      show noMatchB false (w ++ ' ' :: joinWords (w2 :: ws'')) = true
      rw [noMatchB_append_sep ' ' (by decide) w false _]
      rw [h w (List.mem_cons_self _ _),
        ih (fun u hu => h u (List.mem_cons_of_mem _ hu))]
      rfl

theorem noMatchB_splitWAux : ∀ (l acc : List Char),
    noMatchB false (acc ++ l) = true →
    ∀ w ∈ splitWAux acc l, noMatchB false w = true := by
  intro l
  induction l with
  | nil =>
    intro acc h w hw
    simp only [splitWAux] at hw
    by_cases ha : acc = []
    · simp [ha] at hw
    · rw [if_neg ha] at hw
      rw [List.mem_singleton.mp hw]
      simpa using h
  | cons c cs ih =>
    intro acc h w hw
    simp only [splitWAux] at hw
    by_cases hsp : pyIsSpace c = true
    · rw [if_pos hsp] at hw
      have hcw : isWordChar c = false := isWordChar_eq_false_of_space c hsp
      rw [noMatchB_append_sep c hcw acc false cs] at h
      simp only [Bool.and_eq_true] at h
      by_cases ha : acc = []
      · rw [if_pos ha] at hw
        exact ih [] (by simpa using h.2) w hw
      · rw [if_neg ha] at hw
        rcases List.mem_cons.mp hw with rfl | hw2
        · exact h.1
        · exact ih [] (by simpa using h.2) w hw2
    · rw [if_neg hsp] at hw
      refine ih (acc ++ [c]) ?_ w hw
      rw [List.append_assoc]
      simpa using h

/-! ## Splitting and joining normalized words -/

theorem splitWAux_words : ∀ (l acc : List Char), spaceFree acc = true →
    ∀ w ∈ splitWAux acc l, w ≠ [] ∧ spaceFree w = true := by
  intro l
  induction l with
  | nil =>
    intro acc ha w hw
    simp only [splitWAux] at hw
    by_cases h0 : acc = []
    · simp [h0] at hw
    · rw [if_neg h0] at hw
      rw [List.mem_singleton.mp hw]
      exact ⟨h0, ha⟩
  | cons c cs ih =>
    intro acc ha w hw
    simp only [splitWAux] at hw
    by_cases hsp : pyIsSpace c = true
    · rw [if_pos hsp] at hw
      by_cases h0 : acc = []
      · rw [if_pos h0] at hw
        exact ih [] rfl w hw
      · rw [if_neg h0] at hw
        rcases List.mem_cons.mp hw with rfl | hw2
        · exact ⟨h0, ha⟩
        · exact ih [] rfl w hw2
    · rw [if_neg hsp] at hw
      refine ih (acc ++ [c]) ?_ w hw
      have hc : pyIsSpace c = false := by
        cases hh : pyIsSpace c
        · rfl
        · exact absurd hh hsp
      simp only [spaceFree, List.all_append, List.all_cons, List.all_nil,
        Bool.and_true, Bool.and_eq_true, Bool.not_eq_true'] at ha ⊢
      exact ⟨ha, hc⟩

theorem splitWAux_through_word : ∀ (w l acc : List Char), spaceFree w = true →
    splitWAux acc (w ++ l) = splitWAux (acc ++ w) l := by
  intro w
  induction w with
  | nil => intro l acc _; simp
  | cons c w' ih =>
    intro l acc hsf
    simp only [spaceFree, List.all_cons, Bool.and_eq_true,
      Bool.not_eq_true'] at hsf
    simp only [List.cons_append, splitWAux]
    rw [if_neg (by simp [hsf.1])]
    simp only [List.append_eq]
    rw [ih l (acc ++ [c]) (by simpa [spaceFree] using hsf.2)]
    rw [List.append_assoc]
    rfl

theorem splitW_joinWords : ∀ (ws : List (List Char)),
    (∀ w ∈ ws, w ≠ [] ∧ spaceFree w = true) → splitW (joinWords ws) = ws := by
  intro ws
  induction ws with
  | nil => intro _; rfl
  | cons w ws' ih =>
    intro h
    have hw := h w (List.mem_cons_self _ _)
    cases ws' with
    | nil =>
      show splitWAux [] (joinWords [w]) = [w]
      calc splitWAux [] (joinWords [w])
          = splitWAux [] (w ++ []) := by rw [List.append_nil]; rfl
        _ = splitWAux ([] ++ w) [] := splitWAux_through_word w [] [] hw.2
        _ = [w] := by simp [splitWAux, hw.1]
    | cons w2 ws'' =>
      show splitWAux [] (w ++ ' ' :: joinWords (w2 :: ws'')) = w :: w2 :: ws''
      rw [splitWAux_through_word w _ [] hw.2]
      simp only [List.nil_append, splitWAux]
      rw [if_pos (by decide : pyIsSpace ' ' = true), if_neg hw.1]
      exact congrArg (w :: ·)
        (ih (fun u hu => h u (List.mem_cons_of_mem _ hu)))

theorem noMatchB_map_dash : ∀ (l : List Char) (b : Bool),
    noMatchB b (l.map dashToSpace) = noMatchB b l := by
  intro l
  induction l with
  | nil => intro b; rfl
  | cons c cs ih =>
    intro b
    simp only [List.map_cons, noMatchB]
    rw [ih]
    have h1 : isWordChar (dashToSpace c) = isWordChar c := by
      by_cases hc : c = '-'
      · subst hc; decide
      · simp [dashToSpace, hc]
    have h2 : deMatch b (dashToSpace c :: List.map dashToSpace cs) =
        deMatch b (c :: cs) := by
      rw [deMatch_cons_eq, deMatch_cons_eq]
      have e1 : (dashToSpace c == 'd') = (c == 'd') := by
        by_cases hc : c = '-'
        · subst hc; decide
        · simp [dashToSpace, hc]
      have e2 : ((List.map dashToSpace cs).head? == some 'e') =
          (cs.head? == some 'e') := by
        cases cs with
        | nil => rfl
        | cons x xs =>
          simp only [List.map_cons, List.head?_cons]
          by_cases hx : x = '-'
          · subst hx; decide
          · simp [dashToSpace, hx]
      have e3 : headIsWord (List.map dashToSpace cs).tail =
          headIsWord cs.tail := by
        cases cs with
        | nil => rfl
        | cons x xs =>
          simp only [List.map_cons, List.tail_cons]
          cases xs with
          | nil => rfl
          | cons y ys =>
            simp only [List.map_cons, headIsWord]
            by_cases hy : y = '-'
            · subst hy; decide
            · simp [dashToSpace, hy]
      rw [e1, e2, e3]
    rw [h1, h2]

/-! ## Character provenance and stability -/

theorem mem_subDe_aux : ∀ (n : Nat) (b : Bool) (l : List Char), l.length ≤ n →
    ∀ x ∈ subDe b l, x ∈ l ∨ x = ' ' := by
  intro n
  induction n with
  | zero =>
    intro b l h x hx
    have hl : l = [] := List.length_eq_zero.mp (Nat.le_zero.mp h)
    subst hl
    simp [subDe_nil] at hx
  | succ n ih =>
    intro b l h x hx
    cases l with
    | nil => simp [subDe_nil] at hx
    | cons c cs =>
      simp only [List.length_cons, Nat.add_le_add_iff_right] at h
      rw [subDe_cons] at hx
      by_cases hd : deMatch b (c :: cs) = true
      · rw [if_pos hd] at hx
        rcases List.mem_cons.mp hx with rfl | hx2
        · exact Or.inr rfl
        · rcases ih true cs.tail (by simp only [List.length_tail]; omega) x hx2
            with h1 | h2
          · left
            cases cs with
            | nil => simp at h1
            | cons c2 cs2 =>
              simp only [List.tail_cons] at h1
              exact List.mem_cons_of_mem _ (List.mem_cons_of_mem _ h1)
          · exact Or.inr h2
      · rw [if_neg hd] at hx
        rcases List.mem_cons.mp hx with rfl | hx2
        · exact Or.inl (List.mem_cons_self _ _)
        · rcases ih (isWordChar c) cs h x hx2 with h1 | h2
          · exact Or.inl (List.mem_cons_of_mem _ h1)
          · exact Or.inr h2

theorem mem_subDe (b : Bool) (l : List Char) :
    ∀ x ∈ subDe b l, x ∈ l ∨ x = ' ' :=
  mem_subDe_aux l.length b l (Nat.le_refl _)

theorem mem_splitWAux : ∀ (l acc w : List Char) (x : Char),
    w ∈ splitWAux acc l → x ∈ w → x ∈ acc ∨ x ∈ l := by
  intro l
  induction l with
  | nil =>
    intro acc w x hw hx
    simp only [splitWAux] at hw
    by_cases h0 : acc = []
    · simp [h0] at hw
    · rw [if_neg h0] at hw
      rw [List.mem_singleton.mp hw] at hx
      exact Or.inl hx
  | cons c cs ih =>
    intro acc w x hw hx
    simp only [splitWAux] at hw
    by_cases hsp : pyIsSpace c = true
    · rw [if_pos hsp] at hw
      by_cases h0 : acc = []
      · rw [if_pos h0] at hw
        rcases ih [] w x hw hx with h1 | h2
        · simp at h1
        · exact Or.inr (List.mem_cons_of_mem _ h2)
      · rw [if_neg h0] at hw
        rcases List.mem_cons.mp hw with rfl | hw2
        · exact Or.inl hx
        · rcases ih [] w x hw2 hx with h1 | h2
          · simp at h1
          · exact Or.inr (List.mem_cons_of_mem _ h2)
    · rw [if_neg hsp] at hw
      rcases ih (acc ++ [c]) w x hw hx with h1 | h2
      · rcases List.mem_append.mp h1 with ha | hc
        · exact Or.inl ha
        · rw [List.mem_singleton.mp hc]
          exact Or.inr (List.mem_cons_self _ _)
      · exact Or.inr (List.mem_cons_of_mem _ h2)

theorem mem_joinWords : ∀ (ws : List (List Char)) (x : Char),
    x ∈ joinWords ws → (∃ w ∈ ws, x ∈ w) ∨ x = ' ' := by
  intro ws
  induction ws with
  | nil => intro x hx; simp [joinWords] at hx
  | cons w ws' ih =>
    intro x hx
    cases ws' with
    | nil => exact Or.inl ⟨w, List.mem_singleton_self w, hx⟩
    | cons w2 ws'' =>
      simp only [joinWords] at hx
      rcases List.mem_append.mp hx with h1 | h2
      · exact Or.inl ⟨w, List.mem_cons_self _ _, h1⟩
      · rcases List.mem_cons.mp h2 with rfl | h3
        · exact Or.inr rfl
        · rcases ih x h3 with ⟨u, hu, hxu⟩ | hsp
          · exact Or.inl ⟨u, List.mem_cons_of_mem _ hu, hxu⟩
          · exact Or.inr hsp

theorem stableChar_elim {c : Char} (h : stableChar c = true) :
    pyLower c = c ∧ unidecodeChar c = [c] := by
  simp only [stableChar, Bool.and_eq_true, beq_iff_eq] at h
  exact h

theorem map_pyLower_id (l : List Char) (h : ∀ c ∈ l, stableChar c = true) :
    l.map pyLower = l := by
  induction l with
  | nil => rfl
  | cons c cs ih =>
    simp only [List.map_cons]
    rw [(stableChar_elim (h c (List.mem_cons_self _ _))).1,
      ih (fun u hu => h u (List.mem_cons_of_mem _ hu))]

theorem flatten_unidecode_id (l : List Char) (h : ∀ c ∈ l, stableChar c = true) :
    (l.map unidecodeChar).flatten = l := by
  induction l with
  | nil => rfl
  | cons c cs ih =>
    simp only [List.map_cons, List.flatten_cons]
    rw [(stableChar_elim (h c (List.mem_cons_self _ _))).2,
      ih (fun u hu => h u (List.mem_cons_of_mem _ hu))]
    rfl

theorem map_dash_id (l : List Char) (h : ∀ c ∈ l, c ≠ '-') :
    l.map dashToSpace = l := by
  induction l with
  | nil => rfl
  | cons c cs ih =>
    simp only [List.map_cons]
    rw [show dashToSpace c = c from by
        simp [dashToSpace, h c (List.mem_cons_self _ _)],
      ih (fun u hu => h u (List.mem_cons_of_mem _ hu))]

theorem normL_chars (l : List Char) (h : ∀ c ∈ l, goodChar c = true) :
    ∀ x ∈ normL l, stableChar x = true ∧ x ≠ '-' := by
  intro x hx
  unfold normL at hx
  rcases mem_joinWords _ x hx with ⟨w, hw, hxw⟩ | rfl
  · have hx4 : x ∈ List.map dashToSpace
        (subDe false (((l.map pyLower).map unidecodeChar).flatten)) := by
      rcases mem_splitWAux _ [] w x hw hxw with h1 | h2
      · simp at h1
      · exact h2
    rcases List.mem_map.mp hx4 with ⟨y, hy, rfl⟩
    have hst : stableChar y = true := by
      rcases mem_subDe false _ y hy with hy2 | rfl
      · rcases List.mem_flatten.mp hy2 with ⟨piece, hpiece, hypiece⟩
        rcases List.mem_map.mp hpiece with ⟨a, ha, rfl⟩
        rcases List.mem_map.mp ha with ⟨a0, ha0, rfl⟩
        have hg := h a0 ha0
        simp only [goodChar, List.all_eq_true] at hg
        exact hg y hypiece
      · decide
    constructor
    · by_cases hy' : y = '-'
      · subst hy'; decide
      · simpa [dashToSpace, hy'] using hst
    · by_cases hy' : y = '-'
      · subst hy'; decide
      · simp only [dashToSpace, if_neg hy']
        exact hy'
  · exact ⟨by decide, by decide⟩

/-! ## Idempotence of the normalizer on stable text -/

theorem normL_normL (l : List Char) (h : ∀ c ∈ l, goodChar c = true) :
    normL (normL l) = normL l := by
  have hch := normL_chars l h
  have h1 : (normL l).map pyLower = normL l :=
    map_pyLower_id _ (fun c hc => (hch c hc).1)
  have h2 : (((normL l).map pyLower).map unidecodeChar).flatten = normL l := by
    rw [h1]
    exact flatten_unidecode_id _ (fun c hc => (hch c hc).1)
  have h3 : noMatchB false (normL l) = true := by
    unfold normL
    apply noMatchB_joinWords
    intro w hw
    refine noMatchB_splitWAux _ [] ?_ w hw
    simp only [List.nil_append]
    rw [noMatchB_map_dash]
    exact noMatch_subDe _
  have h4 : subDe false (normL l) = normL l := subDe_id_of_noMatch _ false h3
  have h5 : (normL l).map dashToSpace = normL l :=
    map_dash_id _ (fun c hc => (hch c hc).2)
  have h6 : joinWords (splitW (normL l)) = normL l := by
    have hws : ∀ w ∈ splitW (List.map dashToSpace (subDe false
        (((l.map pyLower).map unidecodeChar).flatten))),
        w ≠ [] ∧ spaceFree w = true :=
      splitWAux_words _ [] rfl
    show joinWords (splitW (joinWords (splitW (List.map dashToSpace (subDe false
        (((l.map pyLower).map unidecodeChar).flatten)))))) =
      joinWords (splitW (List.map dashToSpace (subDe false
        (((l.map pyLower).map unidecodeChar).flatten))))
    rw [splitW_joinWords _ hws]
  calc normL (normL l)
      = joinWords (splitW (List.map dashToSpace (subDe false
          ((((normL l).map pyLower).map unidecodeChar).flatten)))) := rfl
    _ = joinWords (splitW (List.map dashToSpace (subDe false (normL l)))) := by
          rw [h2]
    _ = joinWords (splitW (List.map dashToSpace (normL l))) := by rw [h4]
    _ = joinWords (splitW (normL l)) := by rw [h5]
    _ = normL l := h6

/-! ## Claim C8 (corrected) -/

/-- C8, counterexample: the normalizer is not idempotent on every string.
The transliteration step turns `'北'` into `"Bei "` (the library's own
documented behaviour), whose capital `B` is only lower-cased by the next
pass: `norm_nome (norm_nome "北") = "bei" ≠ "Bei" = norm_nome "北"`. -/
theorem c8_norm_not_idempotent :
    norm_nome (norm_nome "北") ≠ norm_nome "北" := by decide

/-- C8 as amended: the normalizer is idempotent on every string whose
characters have a lower-case-stable, transliteration-stable transliteration
(`goodChar`) — in particular on all ASCII text and on the accented Latin
letters this service handles.  Full generality fails only for characters
whose transliteration introduces capital letters, as in the
counterexample. -/
theorem c8_norm_idempotent_on_good (x : String)
    (h : ∀ c ∈ x.data, goodChar c = true) :
    norm_nome (norm_nome x) = norm_nome x := by
  show (⟨normL (normL x.data)⟩ : String) = ⟨normL x.data⟩
  rw [normL_normL x.data h]

/-- Witness for the amended C8 at a concrete accented, hyphenated name. -/
theorem c8_norm_idempotent_on_good_witness :
    (∀ c ∈ "Couro-de-Jacaré".data, goodChar c = true) ∧
    norm_nome (norm_nome "Couro-de-Jacaré") = norm_nome "Couro-de-Jacaré" :=
  ⟨by decide, c8_norm_idempotent_on_good "Couro-de-Jacaré" (by decide)⟩
